import Mathlib

/-!
Shallow embedding of `createZodJSON` from `src/unnamed/part_003` (the
persistence module of zod-file), together with proofs about its
construction-time migration-chain validation, its load pipeline
(read → JSON.parse → version envelope → migration loop → final validation,
with the throwOnError/default branching at every failure point) and its
save pipeline (schema encode → version wrap by object spread → stringify).

JavaScript values produced by `JSON.parse` are modelled by `JValue`;
JS numbers are modelled as rationals (exact for the integer comparisons
the code performs).  The external capabilities (Zod schemas, migration
transforms, the file system, `JSON.parse`/`JSON.stringify`) are modelled
as explicit function arguments returning `Except`, so that a throwing
JS call is an `.error` result.
-/

/-- A JSON-like JavaScript value (output of `JSON.parse`). -/
inductive JValue where
  | jnull
  | jbool (b : Bool)
  | jnum (q : Rat)
  | jstr (s : String)
  | jarr (xs : List JValue)
  | jobj (fields : List (String × JValue))
deriving Repr

/-- First-match lookup of a key in a JS object's field list
(mirrors property access `obj[key]`; real JS objects have unique keys). -/
def lookupField : List (String × JValue) → String → Option JValue
  | [], _ => none
  | (k, v) :: rest, key => if k = key then some v else lookupField rest key

/-- Number of fields with the given key (1 or 0 for real JS objects). -/
def countKey (l : List (String × JValue)) (key : String) : Nat :=
  l.countP (fun p => p.1 == key)

/-- JS property assignment `obj[k] = v`: replaces the (first) existing
entry for `k` in place, otherwise appends a new entry at the end.  This is
the per-property semantics of object spread. -/
def setField : List (String × JValue) → String → JValue → List (String × JValue)
  | [], k, v => [(k, v)]
  | (k0, v0) :: rest, k, v =>
    if k0 = k then (k, v) :: rest else (k0, v0) :: setField rest k v

/-- Spreading `fields` into an object that already has the entries `base`:
each spread field is assigned left to right (JS object-literal spread). -/
def objSpread (base fields : List (String × JValue)) : List (String × JValue) :=
  fields.foldl (fun acc kv => setField acc kv.1 kv.2) base

/-- The own enumerable properties contributed by `...e` inside an object
literal: an object's fields, an array's index-keyed elements, and nothing
for primitives (`typeof e !== 'object'`) or `null`. -/
def spreadFields : JValue → List (String × JValue)
  | .jobj f => f
  | .jarr xs => (xs.enum).map (fun p => (toString p.1, p.2))
  | _ => []

/-- `{ _version: n, ...encoded }` from `save` (part_003 lines 329-335). -/
def wrapVersion (n : Int) (encoded : JValue) : JValue :=
  .jobj (objSpread [("_version", .jnum (n : Rat))] (spreadFields encoded))

/-- A migration step (part_003 lines 46-50): a version number, the Zod
schema for the data at that version (`parseAsync` modelled as a fallible
function) and the transform to the next version (throwing or rejecting
modelled as `.error`). -/
structure MigrationStep where
  version : Int
  schemaParse : JValue → Except Unit JValue
  migrate : JValue → Except Unit JValue

/-- The configured default: a literal value or a zero-argument producer
(part_003 `default?: T | (() => T)`). -/
inductive DefaultV where
  | lit (v : JValue)
  | fn (f : Unit → JValue)

/-- `getDefault` (part_003 lines 354-362) at a configured default. -/
def evalDefault : DefaultV → JValue
  | .lit v => v
  | .fn f => f ()

/-- The immutable configuration captured by `createZodJSON`'s closure:
current version, the current schema's `parseAsync` and `encodeAsync`,
the migration list as supplied, and the default policy. -/
structure Store where
  currentVersion : Option Int
  schemaParse : JValue → Except Unit JValue
  schemaEncode : JValue → Except Unit JValue
  migrations : List MigrationStep
  defaultValue : Option DefaultV

/-- Error codes of `ZodJSONError` as raised in part_003; `Migration`
carries the version named in the message, `UnsupportedVersion` the file
version. -/
inductive ErrorCode where
  | FileRead
  | InvalidJSON
  | InvalidVersion
  | UnsupportedVersion (fileVersion : Int)
  | Migration (version : Int)
  | Validation
  | Encoding
  | FileWrite
deriving DecidableEq, Repr

/-- Construction-time chain diagnoses (the distinct `throw new Error`
sites in part_003 lines 130-154). -/
inductive ConstructErr where
  | nonSequential (found : Int) (pos : Nat)
  | versionRequired
  | wrongLast (expected found : Int)
deriving DecidableEq, Repr

/-- Stable insertion into a version-sorted list. -/
def insertByVersion (m : MigrationStep) : List MigrationStep → List MigrationStep
  | [] => [m]
  | x :: xs =>
    if m.version < x.version then m :: x :: xs else x :: insertByVersion m xs

/-- `[...migrations].sort((a, b) => a.version - b.version)`
(part_003 lines 125-127): a stable ascending sort by version. -/
def sortMigs : List MigrationStep → List MigrationStep
  | [] => []
  | x :: xs => insertByVersion x (sortMigs xs)

/-- The sequential-chain loop (part_003 lines 130-137): returns the first
offending step's version and position, or `none` when every
`sortedMigrations[i].version === i + 1`. -/
def seqCheck : List MigrationStep → Nat → Option ConstructErr
  | [], _ => none
  | m :: rest, i =>
    if m.version = (i : Int) + 1 then seqCheck rest (i + 1)
    else some (.nonSequential m.version i)

/-- The construction-time validation performed by `createZodJSON`
(part_003 lines 124-154): sort, check the chain is sequential from 1,
then — only when steps exist — require a defined current version and a
last step at `currentVersion - 1`. -/
def createCheck (cv : Option Int) (migs : List MigrationStep) :
    Except ConstructErr Unit :=
  let sorted := sortMigs migs
  match seqCheck sorted 0 with
  | some e => .error e
  | none =>
    match sorted with
    | [] => .ok ()
    | m0 :: rest =>
      match cv with
      | none => .error .versionRequired
      | some n =>
        let last := (m0 :: rest).getLast (List.cons_ne_nil m0 rest)
        if last.version = n - 1 then .ok ()
        else .error (.wrongLast (n - 1) last.version)

/-- The integer list `[a, a+1, ..., b-1]` (empty when `b ≤ a`), used to
describe the versions a load walks through. -/
def intRangeAux : Nat → Int → List Int
  | 0, _ => []
  | n + 1, a => a :: intRangeAux n (a + 1)

/-- Versions `a, a+1, ..., b-1` in ascending order. -/
def intRange (a b : Int) : List Int :=
  intRangeAux (b - a).toNat a

/-- The migration loop of `load` (part_003 lines 240-279): starting from
`data` at `v`, while `v < target` find the step for `v`, validate `data`
against its schema, run its transform, advance.  Returns the final value
or the version at which the loop failed (missing step, source-schema
validation failure, or throwing transform — all classified `Migration`
by the caller), together with the list of versions whose transform was
actually invoked. -/
def runMigrations (migs : List MigrationStep) (data : JValue) (v target : Int) :
    Except Int JValue × List Int :=
  if _h : v < target then
    match migs.find? (fun m => m.version == v) with
    | none => (.error v, [])
    | some m =>
      match m.schemaParse data with
      | .error _ => (.error v, [])
      | .ok parsed =>
        match m.migrate parsed with
        | .error _ => (.error v, [v])
        | .ok newData =>
          let rec_ := runMigrations migs newData (v + 1) target
          (rec_.1, v :: rec_.2)
  else (.ok data, [])
termination_by (target - v).toNat
decreasing_by omega

/-- The repeated failure pattern of `load` (part_003):
`if (throwOnError || defaultValue === undefined) throw ZodJSONError(code)`
else `return getDefault()`. -/
def failWith (st : Store) (throwOnError : Bool) (code : ErrorCode) :
    Except ErrorCode JValue :=
  if throwOnError then .error code
  else
    match st.defaultValue with
    | none => .error code
    | some d => .ok (evalDefault d)

/-- Final validation of the (possibly migrated) value against the current
schema (part_003 lines 284-301). -/
def finalValidate (st : Store) (throwOnError : Bool) (data : JValue) :
    Except ErrorCode JValue :=
  match st.schemaParse data with
  | .ok r => .ok r
  | .error _ => failWith st throwOnError .Validation

/-- The version tag as read by `load` (part_003 lines 192-206): present
only when the parsed value is a non-null object carrying a `_version`
property (arrays and primitives have none). -/
def versionTag : JValue → Option JValue
  | .jobj fields => lookupField fields "_version"
  | _ => none

/-- Rest destructuring `const { _version, ...extractedData } = parsed`
(part_003 lines 234-238). -/
def stripVersion : JValue → JValue
  | .jobj fields => .jobj (fields.filter (fun p => !(p.1 == "_version")))
  | v => v

/-- The tail of `load` after a valid version tag `fileVersion` has been
extracted (part_003 lines 222-279 and the final validation): the
unsupported-future-version check, the migration loop, and the final
schema validation.  The second component is the list of migration
versions whose transform ran. -/
def afterVersion (st : Store) (throwOnError : Bool) (n fileVersion : Int)
    (stripped : JValue) : Except ErrorCode JValue × List Int :=
  if fileVersion > n then
    (failWith st throwOnError (.UnsupportedVersion fileVersion), [])
  else
    match runMigrations (sortMigs st.migrations) stripped fileVersion n with
    | (.error v, tr) => (failWith st throwOnError (.Migration v), tr)
    | (.ok d, tr) => (finalValidate st throwOnError d, tr)

/-- `load` (part_003 lines 156-302).  `readResult` is the outcome of
`fs.readFile` and `parse` is `JSON.parse`; both are external capabilities.
Returns the load result together with the versions whose migration
transform was invoked. -/
def load (st : Store) (throwOnError : Bool) (readResult : Except Unit String)
    (parse : String → Except Unit JValue) :
    Except ErrorCode JValue × List Int :=
  match readResult with
  | .error _ => (failWith st throwOnError .FileRead, [])
  | .ok content =>
    match parse content with
    | .error _ => (failWith st throwOnError .InvalidJSON, [])
    | .ok parsed =>
      match st.currentVersion with
      | none => (finalValidate st throwOnError parsed, [])
      | some n =>
        match versionTag parsed with
        | none => (failWith st throwOnError .InvalidVersion, [])
        | some (.jnum q) =>
          if q.den = 1 ∧ 0 < q then
            afterVersion st throwOnError n q.num (stripVersion parsed)
          else (failWith st throwOnError .InvalidVersion, [])
        | some _ => (failWith st throwOnError .InvalidVersion, [])

/-- The object handed to `JSON.stringify` by `save` (part_003 lines
328-335): the encoded value wrapped with the version tag when a current
version is configured, the encoded value unchanged otherwise. -/
def fileDataOf (st : Store) (encoded : JValue) : JValue :=
  match st.currentVersion with
  | some n => wrapVersion n encoded
  | none => encoded

/-- `save` (part_003 lines 304-352) up to the write: encode through the
schema (`Encoding` failure is always thrown, never defaulted), wrap,
stringify.  The produced string is what is written to storage. -/
def save (st : Store) (data : JValue) (compact : Bool)
    (stringify : JValue → Bool → String) : Except ErrorCode String :=
  match st.schemaEncode data with
  | .error _ => .error .Encoding
  | .ok encoded => .ok (stringify (fileDataOf st encoded) compact)

/-! ### Helper lemmas about `intRange` -/

theorem intRangeAux_mem (n : Nat) : ∀ (a x : Int), x ∈ intRangeAux n a ↔ a ≤ x ∧ x < a + n := by
  induction n with
  | zero => intro a x; simp [intRangeAux]
  | succ k ih =>
    intro a x
    simp only [intRangeAux, List.mem_cons, ih]
    omega

theorem mem_intRange (a b x : Int) : x ∈ intRange a b ↔ a ≤ x ∧ x < b := by
  unfold intRange
  rw [intRangeAux_mem]
  omega

theorem intRange_self (a : Int) : intRange a a = [] := by
  unfold intRange
  simp [intRangeAux]

theorem intRange_eq_nil (a b : Int) (h : b ≤ a) : intRange a b = [] := by
  unfold intRange
  have : (b - a).toNat = 0 := by omega
  rw [this]
  rfl

theorem intRange_cons (a b : Int) (h : a < b) :
    intRange a b = a :: intRange (a + 1) b := by
  unfold intRange
  have h1 : (b - a).toNat = (b - (a + 1)).toNat + 1 := by omega
  rw [h1]
  rfl

theorem intRange_length (a b : Int) : (intRange a b).length = (b - a).toNat := by
  unfold intRange
  generalize (b - a).toNat = n
  induction n generalizing a with
  | zero => rfl
  | succ k ih => simp [intRangeAux, ih]

theorem intRangeAux_snoc (n : Nat) :
    ∀ a : Int, intRangeAux (n + 1) a = intRangeAux n a ++ [a + n] := by
  induction n with
  | zero => intro a; simp [intRangeAux]
  | succ k ih =>
    intro a
    have hc : a + ((k + 1 : Nat) : Int) = a + 1 + (k : Int) := by push_cast; ring
    show a :: intRangeAux (k + 1) (a + 1) =
      (a :: intRangeAux k (a + 1)) ++ [a + ((k + 1 : Nat) : Int)]
    rw [ih (a + 1), hc, List.cons_append]

theorem intRange_append (a b : Int) (h : a ≤ b) :
    intRange a (b + 1) = intRange a b ++ [b] := by
  unfold intRange
  have h1 : (b + 1 - a).toNat = (b - a).toNat + 1 := by omega
  rw [h1, intRangeAux_snoc]
  congr 1
  simp only [List.cons.injEq, and_true]
  omega

theorem not_mem_intRange_self (a b : Int) : b ∉ intRange a b := by
  rw [mem_intRange]
  omega

/-! ### Helper lemmas about the migration loop -/

theorem runMigrations_le (migs : List MigrationStep) (d : JValue) (v target : Int)
    (h : ¬ v < target) : runMigrations migs d v target = (.ok d, []) := by
  rw [runMigrations]
  simp [h]

theorem runMigrations_lt (migs : List MigrationStep) (d : JValue) (v target : Int)
    (h : v < target) :
    runMigrations migs d v target =
      match migs.find? (fun m => m.version == v) with
      | none => (.error v, [])
      | some m =>
        match m.schemaParse d with
        | .error _ => (.error v, [])
        | .ok parsed =>
          match m.migrate parsed with
          | .error _ => (.error v, [v])
          | .ok newData =>
            ((runMigrations migs newData (v + 1) target).1,
              v :: (runMigrations migs newData (v + 1) target).2) := by
  rw [runMigrations]
  simp [h]

/-- Running the loop from `k` across steps that all succeed up to `j`
is the same as running from `j`, with versions `k..j-1` migrated. -/
theorem runMigrations_upTo (migs : List MigrationStep) (tgt : Int)
    (w : Int → JValue) (j : Int) (hjt : j ≤ tgt) :
    ∀ n : Nat, ∀ k : Int, (j - k).toNat = n → k ≤ j →
    (∀ v, k ≤ v → v < j →
      ∃ m p, migs.find? (fun s => s.version == v) = some m ∧
        m.schemaParse (w v) = .ok p ∧ m.migrate p = .ok (w (v + 1))) →
    runMigrations migs (w k) k tgt =
      ((runMigrations migs (w j) j tgt).1,
        intRange k j ++ (runMigrations migs (w j) j tgt).2) := by
  intro n
  induction n with
  | zero =>
    intro k hn hkj hsteps
    have hk : k = j := by omega
    subst hk
    simp [intRange_self]
  | succ i ih =>
    intro k hn hkj hsteps
    have hkj2 : k < j := by omega
    obtain ⟨m, p, hfind, hparse, hmig⟩ := hsteps k le_rfl hkj2
    rw [runMigrations_lt migs (w k) k tgt (by omega)]
    simp only [hfind, hparse, hmig]
    rw [ih (k + 1) (by omega) (by omega)
      (fun v hv1 hv2 => hsteps v (by omega) hv2)]
    rw [intRange_cons k j hkj2, List.cons_append]

/-- A versioned load whose parsed file carries a valid integer tag
reduces to the post-envelope stage `afterVersion`. -/
theorem load_valid_tag (st : Store) (t : Bool) (content : String)
    (parse : String → Except Unit JValue) (parsed : JValue) (n : Int) (q : Rat)
    (hcv : st.currentVersion = some n)
    (hparse : parse content = .ok parsed)
    (htag : versionTag parsed = some (.jnum q))
    (hden : q.den = 1) (hpos : 0 < q) :
    load st t (.ok content) parse = afterVersion st t n q.num (stripVersion parsed) := by
  unfold load
  simp only [hparse, hcv, htag]
  simp [hden, hpos]

/-- C1: on a versioned store with current version `n` and a complete
chain, loading a file tagged `k` with `1 ≤ k ≤ n` whose steps all succeed
invokes exactly the migration transforms `k, k+1, ..., n-1`, once each,
in strictly ascending order (`intRange k n`; no step at all when
`k = n`), and returns the result of validating the final migrated value
against the current schema. -/
theorem c1_migration_chain_walk (st : Store) (n k : Int) (t : Bool)
    (content : String) (parse : String → Except Unit JValue)
    (parsed : JValue) (w : Int → JValue) (r : JValue)
    (hcv : st.currentVersion = some n)
    (hparse : parse content = .ok parsed)
    (htag : versionTag parsed = some (.jnum (k : Rat)))
    (hk1 : 1 ≤ k) (hkn : k ≤ n)
    (hw : w k = stripVersion parsed)
    (hsteps : ∀ v, k ≤ v → v < n →
      ∃ m p, (sortMigs st.migrations).find? (fun s => s.version == v) = some m ∧
        m.schemaParse (w v) = .ok p ∧ m.migrate p = .ok (w (v + 1)))
    (hfinal : st.schemaParse (w n) = .ok r) :
    load st t (.ok content) parse = (.ok r, intRange k n) := by
  have hden : ((k : Int) : Rat).den = 1 := Rat.den_intCast k
  have hpos : (0 : Rat) < (k : Int) := by
    have hk0 : (0 : Int) < k := by omega
    exact_mod_cast hk0
  rw [load_valid_tag st t content parse parsed n (k : Rat) hcv hparse htag hden hpos]
  have hnum : ((k : Int) : Rat).num = k := Rat.num_intCast k
  rw [hnum]
  unfold afterVersion
  rw [if_neg (by omega), ← hw]
  rw [runMigrations_upTo (sortMigs st.migrations) n w n le_rfl (n - k).toNat k rfl
    hkn hsteps]
  rw [runMigrations_le _ _ _ _ (by omega)]
  simp [finalValidate, hfinal]

/-- A one-step migration used to exercise the chain walk. -/
def stepW1 : MigrationStep :=
  ⟨1, fun v => .ok v, fun _ => .ok (.jobj [("b", .jbool true)])⟩

/-- A store at version 2 with the complete chain `[stepW1]`. -/
def storeW1 : Store :=
  ⟨some 2, fun v => .ok v, fun v => .ok v, [stepW1], none⟩

/-- The values the chain walk passes through in the witness. -/
def wFun1 : Int → JValue :=
  fun v => if v = 1 then .jobj [] else .jobj [("b", .jbool true)]

theorem c1_migration_chain_walk_witness :
    load storeW1 true (.ok "f")
        (fun _ => .ok (.jobj [("_version", .jnum ((1 : Int) : Rat))])) =
      (.ok (.jobj [("b", .jbool true)]), intRange 1 2) :=
  c1_migration_chain_walk storeW1 2 1 true "f"
    (fun _ => .ok (.jobj [("_version", .jnum ((1 : Int) : Rat))]))
    (.jobj [("_version", .jnum ((1 : Int) : Rat))]) wFun1
    (.jobj [("b", .jbool true)]) rfl rfl rfl (by omega) (by omega) rfl
    (fun v hv1 hv2 => by
      have hv : v = 1 := by omega
      subst hv
      exact ⟨stepW1, .jobj [], rfl, rfl, rfl⟩)
    rfl

/-- C4: during migration each step's source schema validates the current
value before the step's transform runs.  If that validation fails the
load fails (or falls back to the default) as a `Migration` error naming
the failing version and the transform at that version is never invoked
(it is absent from the invocation list); if the transform itself throws,
the load fails the same way with the transform having been invoked. -/
theorem c4_step_validation_guards_transform (st : Store) (n k j : Int) (t : Bool)
    (content : String) (parse : String → Except Unit JValue)
    (parsed : JValue) (w : Int → JValue) (m : MigrationStep)
    (hcv : st.currentVersion = some n)
    (hparse : parse content = .ok parsed)
    (htag : versionTag parsed = some (.jnum (k : Rat)))
    (hk1 : 1 ≤ k) (hkj : k ≤ j) (hjn : j < n)
    (hw : w k = stripVersion parsed)
    (hsteps : ∀ v, k ≤ v → v < j →
      ∃ mv p, (sortMigs st.migrations).find? (fun s => s.version == v) = some mv ∧
        mv.schemaParse (w v) = .ok p ∧ mv.migrate p = .ok (w (v + 1)))
    (hfind : (sortMigs st.migrations).find? (fun s => s.version == j) = some m) :
    (m.schemaParse (w j) = .error () →
      load st t (.ok content) parse = (failWith st t (.Migration j), intRange k j) ∧
        j ∉ intRange k j) ∧
    (∀ p, m.schemaParse (w j) = .ok p → m.migrate p = .error () →
      load st t (.ok content) parse = (failWith st t (.Migration j), intRange k (j + 1))) := by
  have hden : ((k : Int) : Rat).den = 1 := Rat.den_intCast k
  have hpos : (0 : Rat) < (k : Int) := by
    have hk0 : (0 : Int) < k := by omega
    exact_mod_cast hk0
  have hload : load st t (.ok content) parse = afterVersion st t n k (w k) := by
    rw [load_valid_tag st t content parse parsed n (k : Rat) hcv hparse htag hden hpos,
      Rat.num_intCast, ← hw]
  have hpre := runMigrations_upTo (sortMigs st.migrations) n w j (by omega)
    (j - k).toNat k rfl hkj hsteps
  constructor
  · intro hbad
    have hrun : runMigrations (sortMigs st.migrations) (w j) j n = (.error j, []) := by
      rw [runMigrations_lt _ _ _ _ (by omega)]
      simp only [hfind, hbad]
    rw [hload]
    unfold afterVersion
    rw [if_neg (by omega), hpre, hrun]
    exact ⟨by simp, not_mem_intRange_self k j⟩
  · intro p hok hbad
    have hrun : runMigrations (sortMigs st.migrations) (w j) j n = (.error j, [j]) := by
      rw [runMigrations_lt _ _ _ _ (by omega)]
      simp only [hfind, hok, hbad]
    rw [hload]
    unfold afterVersion
    rw [if_neg (by omega), hpre, hrun]
    simp [intRange_append k j hkj]

/-- A step whose source-schema validation always fails. -/
def stepW4 : MigrationStep :=
  ⟨1, fun _ => .error (), fun v => .ok v⟩

/-- A store at version 2 whose single migration step rejects its input. -/
def storeW4 : Store :=
  ⟨some 2, fun v => .ok v, fun v => .ok v, [stepW4], none⟩

theorem c4_step_validation_guards_transform_witness :
    load storeW4 true (.ok "f")
        (fun _ => .ok (.jobj [("_version", .jnum ((1 : Int) : Rat))])) =
      (.error (.Migration 1), intRange 1 1) ∧ (1 : Int) ∉ intRange 1 1 :=
  (c4_step_validation_guards_transform storeW4 2 1 1 true "f"
    (fun _ => .ok (.jobj [("_version", .jnum ((1 : Int) : Rat))]))
    (.jobj [("_version", .jnum ((1 : Int) : Rat))]) (fun _ => .jobj []) stepW4
    rfl rfl rfl (by omega) (by omega) (by omega) rfl
    (fun v hv1 hv2 => absurd (lt_of_le_of_lt hv1 hv2) (lt_irrefl 1))
    rfl).1 rfl

/-- C5: on a versioned store, a file whose (valid integer) version tag is
strictly greater than the configured current version fails (or returns
the default) classified `UnsupportedVersion`, and no migration transform
is ever invoked (the invocation list is empty). -/
theorem c5_unsupported_version (st : Store) (n : Int) (t : Bool) (content : String)
    (parse : String → Except Unit JValue) (parsed : JValue) (q : Rat)
    (hcv : st.currentVersion = some n)
    (hparse : parse content = .ok parsed)
    (htag : versionTag parsed = some (.jnum q))
    (hden : q.den = 1) (hpos : 0 < q) (hgt : n < q.num) :
    load st t (.ok content) parse =
      (failWith st t (.UnsupportedVersion q.num), []) := by
  rw [load_valid_tag st t content parse parsed n q hcv hparse htag hden hpos]
  unfold afterVersion
  rw [if_pos (by omega)]

/-- A store at version 1 with no migrations. -/
def storeW5 : Store :=
  ⟨some 1, fun v => .ok v, fun v => .ok v, [], none⟩

theorem c5_unsupported_version_witness :
    load storeW5 true (.ok "f")
        (fun _ => .ok (.jobj [("_version", .jnum ((2 : Int) : Rat))])) =
      (.error (.UnsupportedVersion 2), []) := by
  have h := c5_unsupported_version storeW5 1 true "f"
    (fun _ => .ok (.jobj [("_version", .jnum ((2 : Int) : Rat))]))
    (.jobj [("_version", .jnum ((2 : Int) : Rat))]) ((2 : Int) : Rat)
    rfl rfl rfl (Rat.den_intCast 2) (by norm_num) (by rw [Rat.num_intCast]; omega)
  rw [h, Rat.num_intCast]
  rfl

/-- C7: on a versioned store, a parsed file with no version tag (not an
object, or lacking `_version`), or whose tag is a non-integer or
non-positive number, or a string, yields the `InvalidVersion`
classification (subject to the throwOnError/default branching), with no
migration invoked; a tag that is an integer strictly greater than 0 is
accepted and the load proceeds to the post-envelope stage. -/
theorem c7_version_tag_classification (st : Store) (n : Int) (t : Bool)
    (content : String) (parse : String → Except Unit JValue) (parsed : JValue)
    (hcv : st.currentVersion = some n)
    (hparse : parse content = .ok parsed) :
    (versionTag parsed = none →
      load st t (.ok content) parse = (failWith st t .InvalidVersion, [])) ∧
    (∀ q : Rat, versionTag parsed = some (.jnum q) → (q.den ≠ 1 ∨ q ≤ 0) →
      load st t (.ok content) parse = (failWith st t .InvalidVersion, [])) ∧
    (∀ s : String, versionTag parsed = some (.jstr s) →
      load st t (.ok content) parse = (failWith st t .InvalidVersion, [])) ∧
    (∀ q : Rat, versionTag parsed = some (.jnum q) → q.den = 1 → 0 < q →
      load st t (.ok content) parse =
        afterVersion st t n q.num (stripVersion parsed)) := by
  refine ⟨?_, ?_, ?_, ?_⟩
  · intro htag
    unfold load
    simp only [hparse, hcv, htag]
  · intro q htag hbad
    unfold load
    simp only [hparse, hcv, htag]
    rw [if_neg]
    intro hc
    rcases hbad with h | h
    · exact h hc.1
    · exact absurd hc.2 (not_lt.mpr h)
  · intro s htag
    unfold load
    simp only [hparse, hcv, htag]
  · intro q htag hden hpos
    exact load_valid_tag st t content parse parsed n q hcv hparse htag hden hpos

theorem c7_version_tag_classification_witness :
    load storeW5 true (.ok "f")
        (fun _ => .ok (.jobj [("_version", .jstr "one")])) =
      (.error .InvalidVersion, []) :=
  (c7_version_tag_classification storeW5 1 true "f"
    (fun _ => .ok (.jobj [("_version", .jstr "one")]))
    (.jobj [("_version", .jstr "one")]) rfl rfl).2.2.1 "one" rfl

/-- Every branch of `load` consults `throwOnError` and the configured
default only through the shared failure pattern: the result of any load
is the strict (throwing) result of the default-free store, with each
error routed through `failWith` for the actual configuration, and an
invocation list that does not depend on either. -/
theorem load_policy (cv : Option Int) (sp se : JValue → Except Unit JValue)
    (migs : List MigrationStep) (dv : Option DefaultV) (t : Bool)
    (rr : Except Unit String) (p : String → Except Unit JValue) :
    load ⟨cv, sp, se, migs, dv⟩ t rr p =
      ((match (load ⟨cv, sp, se, migs, none⟩ true rr p).1 with
        | .error c => failWith ⟨cv, sp, se, migs, dv⟩ t c
        | .ok v => .ok v),
        (load ⟨cv, sp, se, migs, none⟩ true rr p).2) := by
  cases rr with
  | error e => simp [load, failWith]
  | ok content =>
    unfold load
    cases hp : p content with
    | error e => simp [hp, failWith]
    | ok parsed =>
      cases cv with
      | none =>
        unfold finalValidate
        cases hv : sp parsed <;> simp [hp, hv, failWith]
      | some n =>
        cases htag : versionTag parsed with
        | none => simp [hp, htag, failWith]
        | some tv =>
          cases tv with
          | jnull => simp [hp, htag, failWith]
          | jbool b => simp [hp, htag, failWith]
          | jstr s => simp [hp, htag, failWith]
          | jarr xs => simp [hp, htag, failWith]
          | jobj f => simp [hp, htag, failWith]
          | jnum q =>
            by_cases hc : q.den = 1 ∧ 0 < q
            · simp only [hp, htag, if_pos hc]
              unfold afterVersion
              by_cases hgt : q.num > n
              · simp [if_pos hgt, failWith]
              · simp only [if_neg hgt]
                rcases hr : runMigrations (sortMigs migs) (stripVersion parsed) q.num n
                  with ⟨res, tr⟩
                cases res with
                | error v => simp [hr, failWith]
                | ok d =>
                  unfold finalValidate
                  cases hv : sp d <;> simp [hr, hv, failWith]
            · simp [hp, htag, if_neg hc, failWith]

/-- C2: for every load-path failure (any condition that makes the strict,
default-free load raise the typed error `c`): with no default configured
the call raises `c` whether or not `throwOnError` is set; with a default
configured, `throwOnError = true` still raises `c`, and
`throwOnError` unset returns the (freshly evaluated) default instead. -/
theorem c2_error_policy (cv : Option Int) (sp se : JValue → Except Unit JValue)
    (migs : List MigrationStep) (d : DefaultV)
    (rr : Except Unit String) (p : String → Except Unit JValue) (c : ErrorCode)
    (hfail : (load ⟨cv, sp, se, migs, none⟩ true rr p).1 = .error c) :
    (load ⟨cv, sp, se, migs, none⟩ false rr p).1 = .error c ∧
    (load ⟨cv, sp, se, migs, some d⟩ true rr p).1 = .error c ∧
    (load ⟨cv, sp, se, migs, some d⟩ false rr p).1 = .ok (evalDefault d) := by
  refine ⟨?_, ?_, ?_⟩
  · rw [load_policy cv sp se migs none false rr p]
    simp [hfail, failWith]
  · rw [load_policy cv sp se migs (some d) true rr p]
    simp [hfail, failWith]
  · rw [load_policy cv sp se migs (some d) false rr p]
    simp [hfail, failWith]

theorem c2_error_policy_witness :
    (load ⟨none, fun _ => .error (), fun v => .ok v, [], none⟩ false
      (.error ()) (fun _ => .error ())).1 = .error .FileRead ∧
    (load ⟨none, fun _ => .error (), fun v => .ok v, [],
        some (.lit (.jobj [("theme", .jstr "light")]))⟩ true
      (.error ()) (fun _ => .error ())).1 = .error .FileRead ∧
    (load ⟨none, fun _ => .error (), fun v => .ok v, [],
        some (.lit (.jobj [("theme", .jstr "light")]))⟩ false
      (.error ()) (fun _ => .error ())).1 =
      .ok (.jobj [("theme", .jstr "light")]) :=
  c2_error_policy none (fun _ => .error ()) (fun v => .ok v) []
    (.lit (.jobj [("theme", .jstr "light")])) (.error ()) (fun _ => .error ())
    .FileRead rfl

/-! ### Construction-time chain validation -/

theorem insertByVersion_length (m : MigrationStep) :
    ∀ l : List MigrationStep, (insertByVersion m l).length = l.length + 1 := by
  intro l
  induction l with
  | nil => rfl
  | cons x xs ih =>
    unfold insertByVersion
    split
    · simp
    · simp [ih]

theorem sortMigs_length : ∀ l : List MigrationStep, (sortMigs l).length = l.length := by
  intro l
  induction l with
  | nil => rfl
  | cons x xs ih => simp [sortMigs, insertByVersion_length, ih]

theorem sortMigs_ne_nil (l : List MigrationStep) (h : l ≠ []) : sortMigs l ≠ [] := by
  intro hc
  apply h
  have hl := sortMigs_length l
  rw [hc] at hl
  exact List.length_eq_zero.mp hl.symm

/-- The sequential check passes exactly when the version list read off the
sorted steps is the consecutive run `i+1, i+2, ..., i+length`. -/
theorem seqCheck_none_iff : ∀ (l : List MigrationStep) (i : Nat),
    seqCheck l i = none ↔
      l.map MigrationStep.version = intRange ((i : Int) + 1) ((i : Int) + 1 + l.length) := by
  intro l
  induction l with
  | nil =>
    intro i
    simp [seqCheck, intRange_self]
  | cons m rest ih =>
    intro i
    rw [List.map_cons, List.length_cons]
    have hlt : ((i : Int) + 1) < (i : Int) + 1 + ((rest.length + 1 : Nat) : Int) := by
      push_cast; omega
    rw [intRange_cons _ _ hlt]
    have h2 : (i : Int) + 1 + ((rest.length + 1 : Nat) : Int) =
        ((i + 1 : Nat) : Int) + 1 + (rest.length : Int) := by push_cast; ring
    have h1 : ((i : Int) + 1) + 1 = ((i + 1 : Nat) : Int) + 1 := by push_cast; ring
    rw [h2, h1]
    by_cases hv : m.version = (i : Int) + 1
    · simp [seqCheck, hv, ih (i + 1)]
    · simp [seqCheck, hv]

/-- When the sequential check passes, the last sorted step's version is
the start offset plus the chain length. -/
theorem seqCheck_getLast : ∀ (l : List MigrationStep) (i : Nat) (h : l ≠ []),
    seqCheck l i = none → (l.getLast h).version = (i : Int) + l.length := by
  intro l
  induction l with
  | nil => intro i h; exact absurd rfl h
  | cons m rest ih =>
    intro i h hseq
    rw [seqCheck] at hseq
    cases rest with
    | nil =>
      split at hseq
      case isTrue hv =>
        rw [List.getLast_singleton, hv]
        simp only [List.length_singleton]
        push_cast
        ring
      case isFalse => cases hseq
    | cons r rs =>
      split at hseq
      case isTrue hv =>
        rw [List.getLast_cons (List.cons_ne_nil r rs)]
        rw [ih (i + 1) (List.cons_ne_nil r rs) hseq]
        simp only [List.length_cons]
        push_cast
        ring
      case isFalse => cases hseq

/-- C3 (amended): for a configuration with current version `n` and a
NON-EMPTY migration list, construction succeeds exactly when the sorted
step versions are the exact sequence `1, ..., n-1` (a gap, duplicate,
start other than 1, or last step other than `n-1` all throw at
construction time); an empty migration list, by contrast, always
constructs successfully (see the counterexample), so a wholly missing
chain is only detected at load time. -/
theorem c3_chain_validation (n : Int) (migs : List MigrationStep) (hne : migs ≠ []) :
    createCheck (some n) migs = .ok () ↔
      (sortMigs migs).map MigrationStep.version = intRange 1 n := by
  rcases hs : sortMigs migs with _ | ⟨m0, rest⟩
  · exact absurd hs (sortMigs_ne_nil migs hne)
  constructor
  · intro h
    unfold createCheck at h
    rw [hs] at h
    rcases hseq : seqCheck (m0 :: rest) 0 with _ | e
    · simp only [hseq] at h
      have hlast := seqCheck_getLast (m0 :: rest) 0 (List.cons_ne_nil m0 rest) hseq
      have hmap := (seqCheck_none_iff (m0 :: rest) 0).mp hseq
      split at h
      case isTrue hv =>
        rw [hlast] at hv
        rw [hmap]
        have e2 : ((0 : Nat) : Int) + 1 + ((m0 :: rest).length : Int) = n := by
          push_cast at hv ⊢
          omega
        rw [e2]
        have e1 : ((0 : Nat) : Int) + 1 = 1 := by norm_num
        rw [e1]
      case isFalse => cases h
    · simp only [hseq] at h
      cases h
  · intro h
    have hlen : ((m0 :: rest).length : Int) = n - 1 := by
      have hc := congrArg List.length h
      rw [List.length_map, intRange_length] at hc
      have hpos : 0 < (m0 :: rest).length := by simp
      omega
    have hseq : seqCheck (m0 :: rest) 0 = none := by
      rw [seqCheck_none_iff, h]
      have e2 : ((0 : Nat) : Int) + 1 + ((m0 :: rest).length : Int) = n := by
        push_cast at hlen ⊢
        omega
      rw [e2]
      have e1 : ((0 : Nat) : Int) + 1 = 1 := by norm_num
      rw [e1]
    have hlast := seqCheck_getLast (m0 :: rest) 0 (List.cons_ne_nil m0 rest) hseq
    have hv : ((m0 :: rest).getLast (List.cons_ne_nil m0 rest)).version = n - 1 := by
      rw [hlast]
      push_cast at hlen ⊢
      omega
    unfold createCheck
    rw [hs]
    simp only [hseq, hv]
    simp

theorem c3_chain_validation_witness :
    createCheck (some 2) [stepW1] = .ok () ↔
      (sortMigs [stepW1]).map MigrationStep.version = intRange 1 2 :=
  c3_chain_validation 2 [stepW1] (by simp)

/-- C3 counterexample: with current version 2 and an EMPTY migration
list, the sorted versions are `[]` and not the required `[1]`, yet
construction succeeds — contradicting the claim that every chain whose
sorted versions differ from `1..n-1` throws at construction time. -/
theorem c3_chain_validation_counterexample :
    createCheck (some 2) [] = .ok () ∧
      (sortMigs []).map MigrationStep.version ≠ intRange 1 2 :=
  ⟨rfl, by decide⟩

/-- C9 (amended): construction with a non-empty step list and no current
version always fails — but the sequential-order rule is checked FIRST
(on the sorted steps), not after the versioning-must-be-explicit rule as
the specification orders them: the `versionRequired` diagnosis is
produced only when the sequential check passes. -/
theorem c9_version_required_after_seq (migs : List MigrationStep) (hne : migs ≠ []) :
    (∃ e, createCheck none migs = .error e) ∧
    (seqCheck (sortMigs migs) 0 = none →
      createCheck none migs = .error .versionRequired) := by
  rcases hs : sortMigs migs with _ | ⟨m0, rest⟩
  · exact absurd hs (sortMigs_ne_nil migs hne)
  constructor
  · rcases hseq : seqCheck (m0 :: rest) 0 with _ | e
    · exact ⟨.versionRequired, by unfold createCheck; rw [hs]; simp [hseq]⟩
    · exact ⟨e, by unfold createCheck; rw [hs]; simp [hseq]⟩
  · intro hseq
    unfold createCheck
    rw [hs]
    simp [hseq]

theorem c9_version_required_after_seq_witness :
    createCheck none [stepW1] = .error .versionRequired :=
  (c9_version_required_after_seq [stepW1] (by simp)).2 rfl

/-- A migration step declared for version 2 (used to exhibit an
out-of-sequence chain). -/
def stepSkip2 : MigrationStep :=
  ⟨2, fun v => .ok v, fun v => .ok v⟩

/-- C9 counterexample: a chain that is both non-sequential and missing a
current version fails with the out-of-sequence diagnosis (version 2 at
position 0), not the versioning-must-be-explicit one — the code checks
the sequential rule first, contrary to the order the claim asserts. -/
theorem c9_version_required_after_seq_counterexample :
    createCheck none [stepSkip2] = .error (.nonSequential 2 0) ∧
      ConstructErr.nonSequential 2 0 ≠ ConstructErr.versionRequired :=
  ⟨rfl, by decide⟩

/-! ### Object spread lemmas for the save path -/

theorem lookupField_setField_self : ∀ (l : List (String × JValue)) (k : String) (v : JValue),
    lookupField (setField l k v) k = some v := by
  intro l k v
  induction l with
  | nil => simp [setField, lookupField]
  | cons p rest ih =>
    obtain ⟨k0, v0⟩ := p
    unfold setField
    by_cases hk : k0 = k
    · rw [if_pos hk]
      simp [lookupField]
    · rw [if_neg hk]
      unfold lookupField
      rw [if_neg hk]
      exact ih

theorem lookupField_setField_ne : ∀ (l : List (String × JValue)) (k key : String) (v : JValue),
    k ≠ key → lookupField (setField l k v) key = lookupField l key := by
  intro l k key v hne
  induction l with
  | nil =>
    simp [setField, lookupField, fun h => hne h]
  | cons p rest ih =>
    obtain ⟨k0, v0⟩ := p
    unfold setField
    by_cases hk : k0 = k
    · rw [if_pos hk]
      unfold lookupField
      subst hk
      rw [if_neg hne, if_neg hne]
    · rw [if_neg hk]
      unfold lookupField
      by_cases hk2 : k0 = key
      · rw [if_pos hk2, if_pos hk2]
      · rw [if_neg hk2, if_neg hk2]
        exact ih

theorem setField_map_fst_of_mem : ∀ (l : List (String × JValue)) (k : String) (v : JValue),
    k ∈ l.map Prod.fst → (setField l k v).map Prod.fst = l.map Prod.fst := by
  intro l k v
  induction l with
  | nil => intro h; cases h
  | cons p rest ih =>
    intro h
    obtain ⟨k0, v0⟩ := p
    unfold setField
    by_cases hk : k0 = k
    · rw [if_pos hk]
      simp [hk]
    · rw [if_neg hk]
      simp only [List.map_cons, List.mem_cons] at h
      rcases h with h | h
      · exact absurd h.symm hk
      · simp only [List.map_cons, ih h]

theorem setField_of_not_mem : ∀ (l : List (String × JValue)) (k : String) (v : JValue),
    k ∉ l.map Prod.fst → setField l k v = l ++ [(k, v)] := by
  intro l k v
  induction l with
  | nil => intro _; rfl
  | cons p rest ih =>
    intro h
    obtain ⟨k0, v0⟩ := p
    simp only [List.map_cons, List.mem_cons] at h
    push_neg at h
    unfold setField
    rw [if_neg (fun hc => h.1 hc.symm)]
    rw [ih h.2]
    rfl

theorem countKey_eq (l : List (String × JValue)) (key : String) :
    countKey l key = (l.map Prod.fst).countP (fun s => s == key) := by
  unfold countKey
  rw [List.countP_map]
  rfl

theorem countKey_eq_zero (l : List (String × JValue)) (key : String)
    (h : key ∉ l.map Prod.fst) : countKey l key = 0 := by
  rw [countKey_eq, List.countP_eq_zero]
  intro a ha hb
  have hak : a = key := by simpa using hb
  exact h (hak ▸ ha)

theorem lookupField_objSpread_not_mem : ∀ (fields acc : List (String × JValue)) (key : String),
    key ∉ fields.map Prod.fst →
    lookupField (objSpread acc fields) key = lookupField acc key := by
  intro fields
  induction fields with
  | nil => intro acc key _; rfl
  | cons p rest ih =>
    intro acc key h
    obtain ⟨k0, v0⟩ := p
    simp only [List.map_cons, List.mem_cons] at h
    push_neg at h
    show lookupField (objSpread (setField acc k0 v0) rest) key = lookupField acc key
    rw [ih (setField acc k0 v0) key h.2]
    exact lookupField_setField_ne acc k0 key v0 (fun hc => h.1 hc.symm)

theorem lookupField_objSpread_mem : ∀ (fields acc : List (String × JValue)) (key : String) (w : JValue),
    (fields.map Prod.fst).Nodup →
    lookupField fields key = some w →
    lookupField (objSpread acc fields) key = some w := by
  intro fields
  induction fields with
  | nil => intro acc key w _ h; cases h
  | cons p rest ih =>
    intro acc key w hnd hl
    obtain ⟨k0, v0⟩ := p
    rw [List.map_cons] at hnd
    have hnd2 := List.nodup_cons.mp hnd
    unfold lookupField at hl
    show lookupField (objSpread (setField acc k0 v0) rest) key = some w
    by_cases hk : k0 = key
    · subst hk
      rw [if_pos rfl] at hl
      injection hl with hw
      subst hw
      rw [lookupField_objSpread_not_mem rest (setField acc k0 v0) k0 hnd2.1]
      exact lookupField_setField_self acc k0 v0
    · rw [if_neg hk] at hl
      exact ih (setField acc k0 v0) key w hnd2.2 hl

theorem countKey_objSpread_one : ∀ (fields acc : List (String × JValue)),
    countKey acc "_version" = 1 →
    countKey (objSpread acc fields) "_version" = 1 := by
  intro fields
  induction fields with
  | nil => intro acc h; exact h
  | cons p rest ih =>
    intro acc h
    obtain ⟨k0, v0⟩ := p
    show countKey (objSpread (setField acc k0 v0) rest) "_version" = 1
    apply ih
    by_cases hmem : k0 ∈ acc.map Prod.fst
    · rw [countKey_eq, setField_map_fst_of_mem acc k0 v0 hmem, ← countKey_eq]
      exact h
    · rw [setField_of_not_mem acc k0 v0 hmem]
      by_cases hk : k0 = "_version"
      · subst hk
        have h0 := countKey_eq_zero acc "_version" hmem
        omega
      · unfold countKey at h ⊢
        rw [List.countP_append]
        have hz : List.countP (fun p => p.1 == "_version") [(k0, v0)] = 0 := by
          simp [List.countP_cons, hk]
        rw [hz, h]

theorem lookupField_none_not_mem : ∀ (l : List (String × JValue)) (key : String),
    lookupField l key = none → key ∉ l.map Prod.fst := by
  intro l key
  induction l with
  | nil => intro _; simp
  | cons p rest ih =>
    intro h
    obtain ⟨k0, v0⟩ := p
    unfold lookupField at h
    by_cases hk : k0 = key
    · rw [if_pos hk] at h
      cases h
    · rw [if_neg hk] at h
      simp only [List.map_cons, List.mem_cons]
      push_neg
      exact ⟨fun hc => hk hc.symm, ih h⟩

/-- C8 (amended): saving with no configured version passes the encoded
value unchanged to the serializer (no tag is added); saving with
configured version `n` passes an object with exactly one `_version`
field, whose value is `n` when the encoded object does not itself carry
a `_version` field — when it does (see the counterexample), the encoded
field's value wins, because the encoded fields are spread after the
tag. -/
theorem c8_version_tag_emission (st : Store) (encoded : JValue) :
    (st.currentVersion = none → fileDataOf st encoded = encoded) ∧
    (∀ n : Int, st.currentVersion = some n →
      fileDataOf st encoded =
        .jobj (objSpread [("_version", .jnum (n : Rat))] (spreadFields encoded)) ∧
      countKey (objSpread [("_version", .jnum (n : Rat))] (spreadFields encoded))
          "_version" = 1 ∧
      (lookupField (spreadFields encoded) "_version" = none →
        lookupField (objSpread [("_version", .jnum (n : Rat))] (spreadFields encoded))
            "_version" = some (.jnum (n : Rat))) ∧
      (∀ w : JValue, ((spreadFields encoded).map Prod.fst).Nodup →
        lookupField (spreadFields encoded) "_version" = some w →
        lookupField (objSpread [("_version", .jnum (n : Rat))] (spreadFields encoded))
            "_version" = some w)) := by
  constructor
  · intro hcv
    simp [fileDataOf, hcv]
  · intro n hcv
    refine ⟨by simp [fileDataOf, hcv, wrapVersion], ?_, ?_, ?_⟩
    · exact countKey_objSpread_one (spreadFields encoded) _ rfl
    · intro hnone
      rw [lookupField_objSpread_not_mem (spreadFields encoded) _ "_version"
        (lookupField_none_not_mem (spreadFields encoded) "_version" hnone)]
      rfl
    · intro w hnd hw
      exact lookupField_objSpread_mem (spreadFields encoded) _ "_version" w hnd hw

theorem c8_version_tag_emission_witness :
    fileDataOf ⟨some 3, fun v => .ok v, fun v => .ok v, [], none⟩
        (.jobj [("theme", .jstr "dark")]) =
      .jobj (objSpread [("_version", .jnum ((3 : Int) : Rat))]
        (spreadFields (.jobj [("theme", .jstr "dark")]))) ∧
    countKey (objSpread [("_version", .jnum ((3 : Int) : Rat))]
        (spreadFields (.jobj [("theme", .jstr "dark")]))) "_version" = 1 :=
  let h := (c8_version_tag_emission
    ⟨some 3, fun v => .ok v, fun v => .ok v, [], none⟩
    (.jobj [("theme", .jstr "dark")])).2 3 rfl
  ⟨h.1, h.2.1⟩

/-- A store at version 1 whose schema encodes every value to an object
that itself carries a `_version` field. -/
def storeW8 : Store :=
  ⟨some 1, fun v => .ok v, fun _ => .ok (.jobj [("_version", .jnum 99)]), [], none⟩

/-- C8 counterexample: the schema encodes to an object carrying its own
`_version` field with value 99; the object handed to the serializer then
carries `_version = 99`, not the configured current version 1 — so the
tag's value is NOT always the configured current version. -/
theorem c8_version_tag_emission_counterexample :
    storeW8.currentVersion = some 1 ∧
    storeW8.schemaEncode .jnull = .ok (.jobj [("_version", .jnum 99)]) ∧
    fileDataOf storeW8 (.jobj [("_version", .jnum 99)]) =
      .jobj [("_version", .jnum 99)] ∧
    lookupField [("_version", .jnum 99)] "_version" = some (.jnum 99) ∧
    JValue.jnum 99 ≠ JValue.jnum ((1 : Int) : Rat) := by
  refine ⟨rfl, rfl, rfl, rfl, ?_⟩
  intro hc
  injection hc with hq
  rw [Int.cast_one] at hq
  norm_num at hq

/-- C10: on a store with configured version, when the schema-encoded
value itself contains a `_version` field (with unique keys, as every
real JS object has), the object passed to the serializer carries the
encoded field's value as its `_version` tag — the encoded fields are
spread after the tag and override it. -/
theorem c10_encoded_version_overrides (st : Store) (n : Int) (encoded : JValue)
    (f : List (String × JValue)) (w : JValue)
    (hcv : st.currentVersion = some n)
    (hf : encoded = .jobj f)
    (hnd : (f.map Prod.fst).Nodup)
    (hw : lookupField f "_version" = some w) :
    fileDataOf st encoded = .jobj (objSpread [("_version", .jnum (n : Rat))] f) ∧
    lookupField (objSpread [("_version", .jnum (n : Rat))] f) "_version" = some w := by
  subst hf
  constructor
  · simp [fileDataOf, hcv, wrapVersion, spreadFields]
  · exact lookupField_objSpread_mem f _ "_version" w hnd hw

theorem c10_encoded_version_overrides_witness :
    fileDataOf storeW8 (.jobj [("_version", .jnum 99)]) =
      .jobj (objSpread [("_version", .jnum ((1 : Int) : Rat))]
        [("_version", .jnum 99)]) ∧
    lookupField (objSpread [("_version", .jnum ((1 : Int) : Rat))]
        [("_version", .jnum 99)]) "_version" = some (.jnum 99) :=
  c10_encoded_version_overrides storeW8 1 (.jobj [("_version", .jnum 99)])
    [("_version", .jnum 99)] (.jnum 99) rfl rfl (by simp) rfl

theorem objSpread_append_of_disjoint : ∀ (fields acc : List (String × JValue)),
    (fields.map Prod.fst).Nodup →
    (∀ k ∈ fields.map Prod.fst, k ∉ acc.map Prod.fst) →
    objSpread acc fields = acc ++ fields := by
  intro fields
  induction fields with
  | nil => intro acc _ _; simp [objSpread]
  | cons p rest ih =>
    intro acc hnd hdisj
    obtain ⟨k0, v0⟩ := p
    rw [List.map_cons] at hnd
    have hnd2 := List.nodup_cons.mp hnd
    show objSpread (setField acc k0 v0) rest = acc ++ (k0, v0) :: rest
    rw [setField_of_not_mem acc k0 v0 (hdisj k0 (by simp))]
    rw [ih (acc ++ [(k0, v0)]) hnd2.2 ?hd]
    · simp
    case hd =>
      intro k hk
      simp only [List.map_append, List.mem_append]
      push_neg
      refine ⟨hdisj k (by simp [hk]), ?_⟩
      simp only [List.map_cons, List.map_nil, List.mem_singleton]
      intro hc
      subst hc
      exact hnd2.1 hk

/-- C6: round-trip — for a value `v` accepted by the shape contract whose
encode and decode compose to the identity (`henc`, `hval`), with the
serializer and storage faithfully returning the written representation
(`hparse`), and no migrations pending (the saved tag equals the current
version, so the loop is skipped and the invocation list is empty),
`save` followed by `load` returns exactly `v`.  In versioned mode the
encoded value is an object that does not itself use the reserved
`_version` field, as the shape contract never covers the tag. -/
theorem c6_round_trip (st : Store) (v e : JValue) (t compact : Bool)
    (stringify : JValue → Bool → String) (parse : String → Except Unit JValue)
    (henc : st.schemaEncode v = .ok e)
    (hparse : parse (stringify (fileDataOf st e) compact) = .ok (fileDataOf st e))
    (hval : st.schemaParse e = .ok v)
    (hshape : st.currentVersion = none ∨
      ∃ n f, st.currentVersion = some n ∧ 1 ≤ n ∧ e = .jobj f ∧
        "_version" ∉ f.map Prod.fst ∧ (f.map Prod.fst).Nodup) :
    save st v compact stringify = .ok (stringify (fileDataOf st e) compact) ∧
    load st t (.ok (stringify (fileDataOf st e) compact)) parse = (.ok v, []) := by
  have hsave : save st v compact stringify = .ok (stringify (fileDataOf st e) compact) := by
    unfold save
    rw [henc]
  refine ⟨hsave, ?_⟩
  rcases hshape with hcv | ⟨n, f, hcv, hn1, hf, hnm, hnd⟩
  · have hfd : fileDataOf st e = e := by simp [fileDataOf, hcv]
    rw [hfd] at hparse ⊢
    unfold load
    simp only [hparse, hcv]
    unfold finalValidate
    rw [hval]
  · subst hf
    have hspread : objSpread [("_version", JValue.jnum (n : Rat))] f =
        ("_version", JValue.jnum (n : Rat)) :: f := by
      rw [objSpread_append_of_disjoint f _ hnd ?_]
      · rfl
      · intro k hk
        simp only [List.map_cons, List.map_nil, List.mem_singleton]
        intro hc
        subst hc
        exact hnm hk
    have hfd : fileDataOf st (.jobj f) =
        .jobj (("_version", JValue.jnum (n : Rat)) :: f) := by
      simp [fileDataOf, hcv, wrapVersion, spreadFields, hspread]
    rw [hfd] at hparse ⊢
    have htag : versionTag (.jobj (("_version", JValue.jnum (n : Rat)) :: f)) =
        some (.jnum (n : Rat)) := by
      simp [versionTag, lookupField]
    have hpos : (0 : Rat) < (n : Int) := by
      have h0 : (0 : Int) < n := by omega
      exact_mod_cast h0
    rw [load_valid_tag st t (stringify (.jobj (("_version", JValue.jnum (n : Rat)) :: f)) compact)
      parse (.jobj (("_version", JValue.jnum (n : Rat)) :: f)) n (n : Rat)
      hcv hparse htag (Rat.den_intCast n) hpos]
    rw [Rat.num_intCast]
    have hstrip : stripVersion (.jobj (("_version", JValue.jnum (n : Rat)) :: f)) =
        .jobj f := by
      simp only [stripVersion]
      have hhead : (!(("_version", JValue.jnum (n : Rat)).1 == "_version")) = false := by
        simp
      rw [List.filter_cons, hhead]
      simp only [Bool.false_eq_true, if_false]
      congr 1
      apply List.filter_eq_self.mpr
      intro p hp
      have hp1 : p.1 ∈ f.map Prod.fst := List.mem_map_of_mem Prod.fst hp
      have hne : ¬ p.1 = "_version" := fun hc => hnm (hc ▸ hp1)
      simp [hne]
    rw [hstrip]
    unfold afterVersion
    rw [if_neg (by omega)]
    rw [runMigrations_le _ _ _ _ (by omega)]
    simp [finalValidate, hval]

theorem c6_round_trip_witness :
    save storeW5 (.jobj [("theme", .jstr "dark")]) true (fun _ _ => "s") = .ok "s" ∧
    load storeW5 true (.ok "s")
        (fun _ => .ok (fileDataOf storeW5 (.jobj [("theme", .jstr "dark")]))) =
      (.ok (.jobj [("theme", .jstr "dark")]), []) :=
  c6_round_trip storeW5 (.jobj [("theme", .jstr "dark")])
    (.jobj [("theme", .jstr "dark")]) true true (fun _ _ => "s")
    (fun _ => .ok (fileDataOf storeW5 (.jobj [("theme", .jstr "dark")])))
    rfl rfl rfl
    (Or.inr ⟨1, [("theme", .jstr "dark")], rfl, by omega, rfl, by simp, by simp⟩)
